import Mathlib

/-!
Verification of `src/auto_bot.py` (Telegram trading-group bot).

The Python source is shallowly embedded below:
* mutable module state (`last_prices`, `responses`, the scheduler's
  `sent_today` set, the `prices.json` file) is passed and returned
  explicitly;
* Python dicts become association lists (`List (String × _)`) preserving
  insertion order, with `lookupKey` / `insertKey` mirroring `d[k]` access
  and `d[k] = v` assignment;
* `float` prices are idealised as `ℚ`; Python's `round(x, 2)` becomes
  `round2` (round half to even, the tie rule of Python's `round`);
* the CoinGecko response `data` is `Option (List (String × Option ℚ))`:
  `none` models a total request failure (network error / non-JSON payload,
  the outer `except`), and a per-coin value of `none` models a present but
  non-numeric `["usd"]` field; an absent coin id models a `KeyError`.
  Either per-coin failure is caught by the inner `except`;
* wall-clock instants are passed in as explicit values (`LocalTime` for the
  scheduler, a pre-rendered timestamp string for the formatter), since
  `datetime.now` is ambient input.
-/

/-- Ordered-dict lookup, mirroring Python `d[k]` / `d.get(k)`. -/
def lookupKey {α : Type} : List (String × α) → String → Option α
  | [], _ => none
  | (k', v) :: rest, k => if k' = k then some v else lookupKey rest k

/-- Ordered-dict assignment `d[k] = v`: replace in place, else append. -/
def insertKey {α : Type} : List (String × α) → String → α → List (String × α)
  | [], k, v => [(k, v)]
  | (k', v') :: rest, k, v =>
    if k' = k then (k, v) :: rest else (k', v') :: insertKey rest k v

/-- The integer nearest `n / d` (`d > 0`), ties to even: the rounding rule
of Python's `round`. Computed on the numerator and denominator so that it
evaluates inside the kernel; `round2_spec` below restates it through
`Int.floor` and `Int.fract`. -/
def roundHalfEven (n : ℤ) (d : ℕ) : ℤ :=
  let f : ℤ := n / d
  let twice : ℤ := 2 * (n - f * d)
  if twice < d then f
  else if (d : ℤ) < twice then f + 1
  else if f % 2 = 0 then f else f + 1

/-- Python's `round(x, 2)` on the idealised rational price: round `x * 100`
half to even, divide by 100. -/
def round2 (x : ℚ) : ℚ := mkRat (roundHalfEven (x.num * 100) x.den) 100

/-- Sanity check of the numerator/denominator computation: `round2 x` is
exactly round-half-to-even of `x * 100`, expressed through `Int.floor` and
`Int.fract`, divided by 100. -/
theorem round2_spec (x : ℚ) :
    round2 x =
      ((if Int.fract (x * 100) < 1 / 2 then ⌊x * 100⌋
        else if 1 / 2 < Int.fract (x * 100) then ⌊x * 100⌋ + 1
        else if ⌊x * 100⌋ % 2 = 0 then ⌊x * 100⌋ else ⌊x * 100⌋ + 1 : ℤ) : ℚ)
        / 100 := by
  have hdpos : (0 : ℚ) < (x.den : ℚ) := by exact_mod_cast x.den_pos
  have hx100 : x * 100 = ((x.num * 100 : ℤ) : ℚ) / ((x.den : ℕ) : ℚ) := by
    conv_lhs => rw [← Rat.num_div_den x]
    push_cast
    ring
  have hfloor : ⌊x * 100⌋ = x.num * 100 / (x.den : ℤ) := by
    rw [hx100, Rat.floor_intCast_div_natCast]
  have hfract : Int.fract (x * 100) =
      ((x.num * 100 - x.num * 100 / (x.den : ℤ) * (x.den : ℤ) : ℤ) : ℚ) /
        ((x.den : ℕ) : ℚ) := by
    rw [← Int.self_sub_floor, hfloor, hx100]
    push_cast
    field_simp
    ring
  have hc1 : (2 * (x.num * 100 - x.num * 100 / (x.den : ℤ) * (x.den : ℤ)) <
      ((x.den : ℕ) : ℤ)) ↔ Int.fract (x * 100) < 1 / 2 := by
    rw [hfract, div_lt_div_iff₀ hdpos (by norm_num : (0 : ℚ) < 2), one_mul,
        mul_comm]
    norm_cast
  have hc2 : (((x.den : ℕ) : ℤ) < 2 * (x.num * 100 -
      x.num * 100 / (x.den : ℤ) * (x.den : ℤ))) ↔
      1 / 2 < Int.fract (x * 100) := by
    rw [hfract, div_lt_div_iff₀ (by norm_num : (0 : ℚ) < 2) hdpos, one_mul,
        mul_comm]
    norm_cast
  have hmain : roundHalfEven (x.num * 100) x.den =
      (if Int.fract (x * 100) < 1 / 2 then ⌊x * 100⌋
       else if 1 / 2 < Int.fract (x * 100) then ⌊x * 100⌋ + 1
       else if ⌊x * 100⌋ % 2 = 0 then ⌊x * 100⌋ else ⌊x * 100⌋ + 1) := by
    simp only [roundHalfEven, ← hc1, ← hc2, hfloor]
  rw [round2, Rat.mkRat_eq_div, hmain]
  norm_num

/-- `TICKERS` from `auto_bot.py`: symbol ↦ CoinGecko coin id, in insertion
order. -/
def TICKERS : List (String × String) :=
  [("BTC", "bitcoin"), ("ETH", "ethereum"), ("BNB", "binancecoin"),
   ("SOL", "solana"), ("XAU", "tether-gold")]

/-- Extract the parsed `float(data[coin_id]["usd"])` from the modelled
response: `none` when the coin id is absent (`KeyError`) or its `usd` field
does not parse as a number (`ValueError`). -/
def parseUsd (d : List (String × Option ℚ)) (coinId : String) : Option ℚ :=
  (lookupKey d coinId).bind id

/-- A snapshot entry: `(current_price, arrow)` — `none` price means the
Python `None`, the arrow string is the movement indicator glyph. -/
abbrev SnapEntry := Option ℚ × String

/-- The `for name, coin_id in TICKERS.items()` loop body of
`get_market_prices`, threading the mutated `last_prices` dict. -/
def processTickers (d : List (String × Option ℚ)) :
    List (String × String) → List (String × ℚ) →
    List (String × SnapEntry) × List (String × ℚ)
  | [], last => ([], last)
  | (name, coinId) :: rest, last =>
    match parseUsd d coinId with
    | some raw =>
      let cur := round2 raw
      let arrow :=
        match lookupKey last name with
        | some old =>
          if cur > old then " 🔼" else if cur < old then " 🔽" else " ➡️"
        | none => " ➡️"
      let res := processTickers d rest (insertKey last name cur)
      ((name, (some cur, arrow)) :: res.1, res.2)
    | none =>
      let res := processTickers d rest last
      ((name, ((none : Option ℚ), " ❓")) :: res.1, res.2)

/-- Result of one `get_market_prices()` call: the returned `prices`
snapshot, the new in-memory `last_prices`, the `prices.json` contents after
the trailing `save_last_prices` call, and whether that write succeeded. -/
structure FetchResult where
  prices : List (String × SnapEntry)
  last : List (String × ℚ)
  disk : List (String × ℚ)
  savedOk : Bool
deriving DecidableEq, Repr

/-- `save_last_prices`: whole-file rewrite; an `Exception` during the write
is printed and swallowed, leaving the old file contents. -/
def save_last_prices (writeFails : Bool) (prices disk : List (String × ℚ)) :
    List (String × ℚ) × Bool :=
  if writeFails then (disk, false) else (prices, true)

/-- `get_market_prices()`. `data = none` is the outer `except Exception`
path (request/JSON failure); otherwise the ticker loop runs and the final
`last_prices` map is saved. The save is attempted on both paths. -/
def get_market_prices (writeFails : Bool)
    (data : Option (List (String × Option ℚ)))
    (last disk : List (String × ℚ)) : FetchResult :=
  match data with
  | some d =>
    let res := processTickers d TICKERS last
    let sv := save_last_prices writeFails res.2 disk
    ⟨res.1, res.2, sv.1, sv.2⟩
  | none =>
    let prices := TICKERS.map fun nc => (nc.1, ((none : Option ℚ), " ❓"))
    let sv := save_last_prices writeFails last disk
    ⟨prices, last, sv.1, sv.2⟩

-- Basic association-list lemmas

theorem lookupKey_insertKey_self {α : Type} (l : List (String × α)) (k : String) (v : α) :
    lookupKey (insertKey l k v) k = some v := by
  induction l with
  | nil => simp [insertKey, lookupKey]
  | cons hd tl ih =>
    obtain ⟨k', v'⟩ := hd
    by_cases h : k' = k
    · simp [insertKey, lookupKey, h]
    · simp [insertKey, lookupKey, h, ih]

theorem lookupKey_insertKey_ne {α : Type} (l : List (String × α)) (k k' : String) (v : α)
    (h : k ≠ k') : lookupKey (insertKey l k v) k' = lookupKey l k' := by
  induction l with
  | nil => simp [insertKey, lookupKey, h]
  | cons hd tl ih =>
    obtain ⟨k₀, v₀⟩ := hd
    by_cases h₀ : k₀ = k
    · simp [insertKey, lookupKey, h₀, h]
    · simp [insertKey, lookupKey, h₀, ih]

/-- Names not mentioned in the ticker list keep their stored price. -/
theorem processTickers_last_frame (d : List (String × Option ℚ))
    (ts : List (String × String)) (last : List (String × ℚ)) (name : String)
    (h : name ∉ ts.map Prod.fst) :
    lookupKey (processTickers d ts last).2 name = lookupKey last name := by
  induction ts generalizing last with
  | nil => simp [processTickers]
  | cons hd tl ih =>
    obtain ⟨n, cid⟩ := hd
    simp only [List.map_cons, List.mem_cons] at h
    push_neg at h
    cases hp : parseUsd d cid with
    | some raw =>
      simp only [processTickers, hp]
      rw [ih _ h.2, lookupKey_insertKey_ne _ _ _ _ (fun e => h.1 e.symm)]
    | none =>
      simp only [processTickers, hp]
      exact ih _ h.2

/-- The movement indicator `get_market_prices` chooses for a freshly parsed
price `cur`, given the previously stored price (if any). -/
def arrowFor (old : Option ℚ) (cur : ℚ) : String :=
  match old with
  | some o => if cur > o then " 🔼" else if cur < o then " 🔽" else " ➡️"
  | none => " ➡️"

/-- The per-symbol snapshot entry produced by the ticker loop, as a function
of that symbol's own parse result and previously stored price. -/
def entrySpec (d : List (String × Option ℚ)) (coinId : String)
    (old : Option ℚ) : SnapEntry :=
  match parseUsd d coinId with
  | some raw => (some (round2 raw), arrowFor old (round2 raw))
  | none => ((none : Option ℚ), " ❓")

/-- Characterisation of the snapshot: under distinct ticker names, each
symbol's entry depends only on its own parse result and its own previously
stored price. -/
theorem processTickers_prices_lookup (d : List (String × Option ℚ))
    (ts : List (String × String)) (last : List (String × ℚ))
    (name coinId : String) (hnd : (ts.map Prod.fst).Nodup)
    (hmem : (name, coinId) ∈ ts) :
    lookupKey (processTickers d ts last).1 name =
      some (entrySpec d coinId (lookupKey last name)) := by
  induction ts generalizing last with
  | nil => cases hmem
  | cons hd tl ih =>
    obtain ⟨n, c⟩ := hd
    simp only [List.map_cons, List.nodup_cons] at hnd
    rcases List.mem_cons.mp hmem with heq | htl
    · injection heq with h1 h2
      subst h1
      subst h2
      cases hp : parseUsd d coinId with
      | some raw => simp [processTickers, hp, lookupKey, entrySpec, arrowFor]
      | none => simp [processTickers, hp, lookupKey, entrySpec]
    · have hne : n ≠ name := by
        intro e
        exact hnd.1 (e ▸ List.mem_map_of_mem Prod.fst htl)
      cases hp : parseUsd d c with
      | some raw =>
        simp only [processTickers, hp, lookupKey, hne, if_false]
        rw [ih _ hnd.2 htl, lookupKey_insertKey_ne _ _ _ _ hne]
      | none =>
        simp only [processTickers, hp, lookupKey, hne, if_false]
        exact ih _ hnd.2 htl

/-- Characterisation of the updated `last_prices`: a symbol's stored price
is replaced by the freshly rounded parse when it succeeds and is left
untouched when it fails. -/
theorem processTickers_last_lookup (d : List (String × Option ℚ))
    (ts : List (String × String)) (last : List (String × ℚ))
    (name coinId : String) (hnd : (ts.map Prod.fst).Nodup)
    (hmem : (name, coinId) ∈ ts) :
    lookupKey (processTickers d ts last).2 name =
      (match parseUsd d coinId with
       | some raw => some (round2 raw)
       | none => lookupKey last name) := by
  induction ts generalizing last with
  | nil => cases hmem
  | cons hd tl ih =>
    obtain ⟨n, c⟩ := hd
    simp only [List.map_cons, List.nodup_cons] at hnd
    rcases List.mem_cons.mp hmem with heq | htl
    · injection heq with h1 h2
      subst h1
      subst h2
      cases hp : parseUsd d coinId with
      | some raw =>
        simp only [processTickers, hp]
        rw [processTickers_last_frame _ _ _ _ hnd.1, lookupKey_insertKey_self]
      | none =>
        simp only [processTickers, hp]
        exact processTickers_last_frame _ _ _ _ hnd.1
    · have hne : n ≠ name := by
        intro e
        exact hnd.1 (e ▸ List.mem_map_of_mem Prod.fst htl)
      cases hp : parseUsd d c with
      | some raw =>
        simp only [processTickers, hp]
        rw [ih _ hnd.2 htl, lookupKey_insertKey_ne _ _ _ _ hne]
      | none =>
        simp only [processTickers, hp]
        exact ih _ hnd.2 htl

/-- The five ticker symbols are pairwise distinct. -/
theorem tickers_nodup : (TICKERS.map Prod.fst).Nodup := by decide

theorem arrowFor_pos {o cur : ℚ} (h : cur > o) : arrowFor (some o) cur = " 🔼" := by
  simp [arrowFor, h]

theorem arrowFor_neg {o cur : ℚ} (h : cur < o) : arrowFor (some o) cur = " 🔽" := by
  have h' : ¬ (cur > o) := not_lt.mpr h.le
  simp [arrowFor, h', h]

theorem arrowFor_flat {o cur : ℚ} (h : cur = o) : arrowFor (some o) cur = " ➡️" := by
  subst h
  simp [arrowFor]

theorem arrowFor_first (cur : ℚ) : arrowFor none cur = " ➡️" := rfl

theorem arrowFor_ne_unknown (old : Option ℚ) (cur : ℚ) : arrowFor old cur ≠ " ❓" := by
  cases old with
  | none => rw [arrowFor_first]; decide
  | some o =>
    rcases lt_trichotomy cur o with h | h | h
    · rw [arrowFor_neg h]; decide
    · rw [arrowFor_flat h]; decide
    · rw [arrowFor_pos h]; decide

theorem lookupKey_map_const {β γ : Type} (l : List (String × β)) (v : γ) (name : String)
    (h : name ∈ l.map Prod.fst) :
    lookupKey (l.map fun nc => (nc.1, v)) name = some v := by
  induction l with
  | nil => cases h
  | cons hd tl ih =>
    obtain ⟨n, b⟩ := hd
    by_cases e : n = name
    · simp [lookupKey, e]
    · simp only [List.map_cons, List.mem_cons] at h
      rcases h with h | h
      · exact absurd h.symm e
      · simp only [List.map_cons, lookupKey, e, if_false]
        exact ih h

theorem get_market_prices_prices_lookup (wf : Bool) (d : List (String × Option ℚ))
    (last disk : List (String × ℚ)) (name coinId : String)
    (hmem : (name, coinId) ∈ TICKERS) :
    lookupKey (get_market_prices wf (some d) last disk).prices name =
      some (entrySpec d coinId (lookupKey last name)) := by
  have h := processTickers_prices_lookup d TICKERS last name coinId tickers_nodup hmem
  simpa [get_market_prices] using h

theorem get_market_prices_last_lookup (wf : Bool) (d : List (String × Option ℚ))
    (last disk : List (String × ℚ)) (name coinId : String)
    (hmem : (name, coinId) ∈ TICKERS) :
    lookupKey (get_market_prices wf (some d) last disk).last name =
      (match parseUsd d coinId with
       | some raw => some (round2 raw)
       | none => lookupKey last name) := by
  have h := processTickers_last_lookup d TICKERS last name coinId tickers_nodup hmem
  simpa [get_market_prices] using h

/-- Up/down/flat trichotomy of the movement indicator against a stored
price. -/
theorem arrowFor_iff (o cur : ℚ) :
    ((arrowFor (some o) cur = " 🔼") ↔ cur > o) ∧
    ((arrowFor (some o) cur = " 🔽") ↔ cur < o) ∧
    ((arrowFor (some o) cur = " ➡️") ↔ cur = o) := by
  rcases lt_trichotomy cur o with h | h | h
  · rw [arrowFor_neg h]
    exact ⟨iff_of_false (by decide) (not_lt.mpr h.le), iff_of_true rfl h,
           iff_of_false (by decide) (ne_of_lt h)⟩
  · rw [arrowFor_flat h]
    exact ⟨iff_of_false (by decide) (by rw [h]; exact lt_irrefl o),
           iff_of_false (by decide) (by rw [h]; exact lt_irrefl o),
           iff_of_true rfl h⟩
  · rw [arrowFor_pos h]
    exact ⟨iff_of_true rfl h, iff_of_false (by decide) (not_lt.mpr h.le),
           iff_of_false (by decide) (ne_of_gt h)⟩

/-- C1: for every fetch, the movement indicator recorded for a symbol is
the up glyph iff the newly parsed (2-decimal-rounded) price strictly
exceeds the previously stored price, the down glyph iff it is strictly
below it, the flat glyph iff it is equal, and the unknown glyph iff no
valid price could be parsed for that symbol; the very first observation of
a symbol (no stored price) gets the flat glyph, never up or down. -/
theorem movement_indicator_iff (wf : Bool)
    (data : Option (List (String × Option ℚ))) (last disk : List (String × ℚ))
    (name coinId : String) (entry : SnapEntry)
    (hmem : (name, coinId) ∈ TICKERS)
    (hentry : lookupKey (get_market_prices wf data last disk).prices name =
      some entry) :
    (entry.2 = " ❓" ↔ data.bind (fun d => parseUsd d coinId) = none) ∧
    (∀ raw old, data.bind (fun d => parseUsd d coinId) = some raw →
      lookupKey last name = some old →
      ((entry.2 = " 🔼" ↔ round2 raw > old) ∧
       (entry.2 = " 🔽" ↔ round2 raw < old) ∧
       (entry.2 = " ➡️" ↔ round2 raw = old))) ∧
    (∀ raw, data.bind (fun d => parseUsd d coinId) = some raw →
      lookupKey last name = none →
      entry.2 = " ➡️" ∧ entry.2 ≠ " 🔼" ∧ entry.2 ≠ " 🔽") := by
  cases data with
  | none =>
    rw [show (get_market_prices wf none last disk).prices =
          TICKERS.map (fun nc => (nc.1, ((none : Option ℚ), " ❓"))) from rfl,
        lookupKey_map_const _ _ _ (List.mem_map_of_mem Prod.fst hmem)] at hentry
    injection hentry with he
    subst he
    refine ⟨iff_of_true rfl rfl, ?_, ?_⟩
    · intro raw old hraw _
      simp at hraw
    · intro raw hraw _
      simp at hraw
  | some d =>
    rw [get_market_prices_prices_lookup wf d last disk name coinId hmem] at hentry
    injection hentry with he
    subst he
    simp only [Option.some_bind]
    cases hp : parseUsd d coinId with
    | none =>
      refine ⟨?_, ?_, ?_⟩
      · simp [entrySpec, hp]
      · intro raw old hraw _
        exact Option.noConfusion hraw
      · intro raw hraw _
        exact Option.noConfusion hraw
    | some raw =>
      refine ⟨?_, ?_, ?_⟩
      · simp only [entrySpec, hp]
        exact iff_of_false (arrowFor_ne_unknown _ _) (by simp)
      · intro raw' old hraw' hold
        injection hraw' with hr
        subst hr
        simp only [entrySpec, hp, hold]
        exact arrowFor_iff old (round2 raw)
      · intro raw' hraw' hnone
        simp only [entrySpec, hp, hnone, arrowFor_first]
        exact ⟨trivial, by decide, by decide⟩

/-- C1 witness: a concrete fetch where BTC parses to 101.239 (rounding to
101.24) against a stored price of 100 is classified as up. -/
theorem movement_indicator_iff_witness :
    (((some (mkRat 10124 100), " 🔼") : SnapEntry).2 = " 🔼" ↔
      round2 (mkRat 101239 1000) > (100 : ℚ)) := by
  have h := movement_indicator_iff false
    (some [("bitcoin", some (mkRat 101239 1000))]) [("BTC", (100 : ℚ))] []
    "BTC" "bitcoin" ((some (mkRat 10124 100), " 🔼") : SnapEntry)
    (by decide) (by decide)
  exact (h.2.1 (mkRat 101239 1000) (100 : ℚ) (by decide) (by decide)).1

/-- C3: for every symbol whose data is present and numerically parseable in
a successful fetch response, the stored price for that symbol after the
fetch is the parsed value rounded to 2 decimal places. -/
theorem stored_price_eq_rounded (wf : Bool) (d : List (String × Option ℚ))
    (last disk : List (String × ℚ)) (name coinId : String) (raw : ℚ)
    (hmem : (name, coinId) ∈ TICKERS) (hp : parseUsd d coinId = some raw) :
    lookupKey (get_market_prices wf (some d) last disk).last name =
      some (round2 raw) := by
  rw [get_market_prices_last_lookup wf d last disk name coinId hmem, hp]

/-- C3 witness: BTC parsing to 101.239 is stored as 101.24. -/
theorem stored_price_eq_rounded_witness :
    lookupKey (get_market_prices false (some [("bitcoin", some (mkRat 101239 1000))])
      [("BTC", (100 : ℚ))] []).last "BTC" = some (round2 (mkRat 101239 1000)) :=
  stored_price_eq_rounded false [("bitcoin", some (mkRat 101239 1000))]
    [("BTC", (100 : ℚ))] [] "BTC" "bitcoin" (mkRat 101239 1000)
    (by decide) (by decide)

/-- C10: for every fetch and every symbol whose individual price data fails
to parse, the stored last-price map entry for that symbol is left unchanged
by the fetch, so the next successful observation is compared against the
last successfully stored price. -/
theorem failed_parse_keeps_store (wf : Bool) (d : List (String × Option ℚ))
    (last disk : List (String × ℚ)) (name coinId : String)
    (hmem : (name, coinId) ∈ TICKERS) (hp : parseUsd d coinId = none) :
    lookupKey (get_market_prices wf (some d) last disk).last name =
      lookupKey last name := by
  rw [get_market_prices_last_lookup wf d last disk name coinId hmem, hp]

/-- C10 witness: BTC absent from the response leaves its stored 100 in
place. -/
theorem failed_parse_keeps_store_witness :
    lookupKey (get_market_prices false (some [("ethereum", some (7 : ℚ))])
      [("BTC", (100 : ℚ))] []).last "BTC" =
      lookupKey [("BTC", (100 : ℚ))] "BTC" :=
  failed_parse_keeps_store false [("ethereum", some (7 : ℚ))]
    [("BTC", (100 : ℚ))] [] "BTC" "bitcoin" (by decide) (by decide)

/-- C4: on total request failure every symbol of the fixed ticker set is
recorded as unavailable with the unknown indicator, the stored map is
unchanged, the full price map is still written to disk when the write
succeeds, and a write failure leaves the rest of the result untouched
(logged and swallowed, never propagated). -/
theorem total_failure_unavailable (wf : Bool) (last disk : List (String × ℚ)) :
    (get_market_prices wf none last disk).prices =
      TICKERS.map (fun nc => (nc.1, ((none : Option ℚ), " ❓"))) ∧
    (∀ p, p ∈ TICKERS →
      lookupKey (get_market_prices wf none last disk).prices p.1 =
        some ((none : Option ℚ), " ❓")) ∧
    (get_market_prices wf none last disk).last = last ∧
    (get_market_prices wf none last disk).disk =
      (if wf then disk else (get_market_prices wf none last disk).last) ∧
    (get_market_prices wf none last disk).prices =
      (get_market_prices false none last disk).prices ∧
    (get_market_prices wf none last disk).last =
      (get_market_prices false none last disk).last := by
  refine ⟨rfl, ?_, rfl, ?_, ?_, rfl⟩
  · intro p hp
    exact lookupKey_map_const _ _ _ (List.mem_map_of_mem Prod.fst hp)
  · cases wf <;> rfl
  · cases wf <;> rfl

/-- C4 witness: instantiated at a failing write over a one-entry store. -/
theorem total_failure_unavailable_witness :
    lookupKey (get_market_prices true none [("BTC", (100 : ℚ))] []).prices "BTC" =
      some ((none : Option ℚ), " ❓") :=
  (total_failure_unavailable true [("BTC", (100 : ℚ))] []).2.1
    ("BTC", "bitcoin") (by decide)

/-- C5: when the provider response omits or malforms one symbol's data
while the others parse as before, the damaged symbol's snapshot entry has
an absent price and the unknown indicator, and every other symbol's entry
is exactly what it would have been without that failure — processing is
not aborted. -/
theorem partial_failure_isolated (wf : Bool)
    (d dBad : List (String × Option ℚ)) (last disk : List (String × ℚ))
    (s scid : String) (hmem : (s, scid) ∈ TICKERS)
    (hfail : parseUsd dBad scid = none)
    (hagree : ∀ p ∈ TICKERS, p.1 ≠ s → parseUsd dBad p.2 = parseUsd d p.2) :
    lookupKey (get_market_prices wf (some dBad) last disk).prices s =
      some ((none : Option ℚ), " ❓") ∧
    ∀ p ∈ TICKERS, p.1 ≠ s →
      lookupKey (get_market_prices wf (some dBad) last disk).prices p.1 =
        lookupKey (get_market_prices wf (some d) last disk).prices p.1 := by
  constructor
  · rw [get_market_prices_prices_lookup wf dBad last disk s scid hmem]
    simp [entrySpec, hfail]
  · intro p hp hne
    obtain ⟨n, c⟩ := p
    rw [get_market_prices_prices_lookup wf dBad last disk n c hp,
        get_market_prices_prices_lookup wf d last disk n c hp]
    have hpc := hagree (n, c) hp hne
    simp only [entrySpec, hpc]

/-- C5 witness: dropping bitcoin from a full response leaves the ETH entry
identical to a fetch with the full response. -/
theorem partial_failure_isolated_witness :
    lookupKey (get_market_prices false
      (some [("ethereum", some (2000 : ℚ)), ("binancecoin", some (300 : ℚ)),
             ("solana", some (100 : ℚ)), ("tether-gold", some (1800 : ℚ))])
      [] []).prices "ETH" =
    lookupKey (get_market_prices false
      (some [("bitcoin", some (50000 : ℚ)), ("ethereum", some (2000 : ℚ)),
             ("binancecoin", some (300 : ℚ)), ("solana", some (100 : ℚ)),
             ("tether-gold", some (1800 : ℚ))])
      [] []).prices "ETH" :=
  (partial_failure_isolated false
    [("bitcoin", some (50000 : ℚ)), ("ethereum", some (2000 : ℚ)),
     ("binancecoin", some (300 : ℚ)), ("solana", some (100 : ℚ)),
     ("tether-gold", some (1800 : ℚ))]
    [("ethereum", some (2000 : ℚ)), ("binancecoin", some (300 : ℚ)),
     ("solana", some (100 : ℚ)), ("tether-gold", some (1800 : ℚ))]
    [] [] "BTC" "bitcoin" (by decide) (by decide) (by decide)).2
    ("ETH", "ethereum") (by decide) (by decide)

-- The message formatter (`format_market_message`)

/-- Decimal digit character. -/
def digitChar (d : ℕ) : Char := Char.ofNat (48 + d)

/-- Digits of `n`, least significant first (`fuel ≥ n` suffices). -/
def natDigitsRev (fuel n : ℕ) : List Char :=
  match fuel with
  | 0 => []
  | fuel + 1 =>
    if n < 10 then [digitChar n]
    else digitChar (n % 10) :: natDigitsRev fuel (n / 10)

/-- Decimal digits of `n`, most significant first. -/
def natStr (n : ℕ) : List Char := (natDigitsRev (n + 1) n).reverse

/-- Insert a comma before every block of three digits, walking the reversed
digit list. -/
def commaRev : List Char → ℕ → List Char
  | [], _ => []
  | c :: rest, i =>
    if i ≠ 0 ∧ i % 3 = 0 then ',' :: c :: commaRev rest (i + 1)
    else c :: commaRev rest (i + 1)

/-- `n` in decimal with thousands separators. -/
def commaSep (n : ℕ) : String := String.mk ((commaRev (natStr n).reverse 0).reverse)

/-- Python's `f"{price:,.2f}"`: thousands separators and exactly two
fraction digits (re-rounding half-to-even, a no-op on already-rounded
prices). -/
def formatFixed2 (q : ℚ) : String :=
  let cents : ℤ := roundHalfEven (q.num * 100) q.den
  let sign : String := if cents < 0 then "-" else ""
  let a : ℕ := cents.natAbs
  sign ++ commaSep (a / 100) ++ "." ++
    String.mk [digitChar (a % 100 / 10), digitChar (a % 100 % 10)]

/-- The per-coin decorative glyph of `format_market_message`. -/
def coinGlyph (coin : String) : String :=
  if coin = "BTC" then "💰"
  else if coin = "ETH" then "💎"
  else if coin = "BNB" then "🟡"
  else if coin = "SOL" then "🟣"
  else "🏅"

/-- One line of the market message body. -/
def formatLine (coin : String) (pa : SnapEntry) : String :=
  match pa.1 with
  | some price =>
    coinGlyph coin ++ " " ++ coin ++ "/USD: $" ++ formatFixed2 price ++
      pa.2 ++ "\n"
  | none => "⚠️ " ++ coin ++ "/USD: N/A" ++ pa.2 ++ "\n"

/-- `format_market_message(prices, title)`. The Bangkok-time `timestamp`
string is passed in explicitly (`now.strftime("%Y-%m-%d %H:%M:%S")` is
ambient input); everything else is computed from the arguments. -/
def format_market_message (prices : List (String × SnapEntry))
    (title : String) (timestamp : String) : String :=
  (prices.foldl (fun msg cp => msg ++ formatLine cp.1 cp.2)
    (title ++ " (" ++ timestamp ++ "):\n\n")) ++
    "\n💰 One trade is enough to change your life 💸"

/-- Splitting the one-symbol message into the part before the BTC line and
the concrete rest. -/
theorem format_single_data (e : SnapEntry) (title timestamp : String) :
    (format_market_message [("BTC", e)] title timestamp).data =
      (title.data ++ (" (".data ++ timestamp.data)) ++
      (("):\n\n").data ++ ((formatLine "BTC" e).data ++
        ("\n💰 One trade is enough to change your life 💸").data)) := by
  simp [format_market_message, String.data_append, List.append_assoc]

/-- C7: formatting a snapshot in which BTC has price 65000.5 produces a
message containing "BTC/USD: $65,000.50" immediately followed by the single
movement glyph of the snapshot entry, and the formatter is a deterministic
function of the snapshot, the title and the rendered instant. -/
theorem format_btc_line (arrow title timestamp : String)
    (harrow : arrow = " 🔼" ∨ arrow = " 🔽" ∨ arrow = " ➡️" ∨ arrow = " ❓") :
    List.IsInfix ("BTC/USD: $65,000.50" ++ arrow).data
      (format_market_message [("BTC", (some (mkRat 130001 2), arrow))]
        title timestamp).data ∧
    (∀ p₁ p₂ t₁ t₂ s₁ s₂, p₁ = p₂ → t₁ = t₂ → s₁ = s₂ →
      format_market_message p₁ t₁ s₁ = format_market_message p₂ t₂ s₂) := by
  constructor
  · rw [format_single_data]
    refine List.IsInfix.trans ?_
      (List.IsSuffix.isInfix (List.suffix_append _ _))
    rcases harrow with rfl | rfl | rfl | rfl <;> decide
  · intro p₁ p₂ t₁ t₂ s₁ s₂ h1 h2 h3
    rw [h1, h2, h3]

/-- C7 witness: the up-glyph instance at a fixed title and timestamp. -/
theorem format_btc_line_witness :
    List.IsInfix ("BTC/USD: $65,000.50" ++ " 🔼").data
      (format_market_message [("BTC", (some (mkRat 130001 2), " 🔼"))]
        "📊 Market Update" "2026-10-12 09:00:00").data :=
  (format_btc_line " 🔼" "📊 Market Update" "2026-10-12 09:00:00"
    (Or.inl rfl)).1

-- Message handlers (`auto_reply`, `welcome`)

/-- Python `pat in s` (substring containment), on the character lists. -/
def containsAux (pat : List Char) : List Char → Bool
  | [] => pat.isPrefixOf []
  | c :: rest => if pat.isPrefixOf (c :: rest) then true else containsAux pat rest

/-- Python `pat in s` on strings. -/
def strContains (s pat : String) : Bool := containsAux pat.data s.data

/-- Python `s.startswith(pat)`. -/
def strStartsWith (s pat : String) : Bool := pat.data.isPrefixOf s.data

/-- Python `s.lower()` (ASCII case-folding, the relevant fragment). -/
def lowerStr (s : String) : String := String.mk (s.data.map Char.toLower)

/-- Python `s.replace(pat, rep)` for non-empty `pat`: replace disjoint
occurrences left to right. The fuel is the string length, enough because
every step consumes at least one character. -/
def replaceFuel (pat rep : List Char) : ℕ → List Char → List Char
  | 0, s => s
  | _ + 1, [] => []
  | fuel + 1, c :: rest =>
    if pat ≠ [] ∧ pat.isPrefixOf (c :: rest) then
      rep ++ replaceFuel pat rep fuel ((c :: rest).drop pat.length)
    else c :: replaceFuel pat rep fuel rest

/-- Python `s.replace(pat, rep)` on strings. -/
def strReplace (s pat rep : String) : String :=
  String.mk (replaceFuel pat.data rep.data s.data.length s.data)

/-- What `auto_reply` does with an inbound text: fetch-and-reply prices,
send one canned reply, or stay silent. -/
inductive ReplyAction where
  | priceReply : ReplyAction
  | reply : String → ReplyAction
  | noReply : ReplyAction
deriving DecidableEq, Repr

/-- The `for keyword, reply in responses.items()` loop of `auto_reply`:
skip reserved (underscore) keys, answer with the first keyword occurring in
the message. -/
def scanResponses : List (String × String) → String → ReplyAction
  | [], _ => ReplyAction.noReply
  | (keyword, rep) :: rest, msg =>
    if strStartsWith keyword "_" then scanResponses rest msg
    else if strContains msg keyword then ReplyAction.reply rep
    else scanResponses rest msg

/-- `auto_reply(update, context)` on the message text: lowercase, take the
price branch if "price" occurs or "/price" leads, otherwise scan the
response table. -/
def auto_reply (responses : List (String × String)) (text : String) :
    ReplyAction :=
  let msg := lowerStr text
  if strContains msg "price" || strStartsWith msg "/price" then
    ReplyAction.priceReply
  else scanResponses responses msg

/-- The scan is first-match over the non-reserved entries in stored
order. -/
theorem scanResponses_eq_filter_head (rs : List (String × String))
    (msg : String) :
    scanResponses rs msg =
      (match (rs.filter fun kr =>
          !(strStartsWith kr.1 "_") && strContains msg kr.1).head? with
       | some kr => ReplyAction.reply kr.2
       | none => ReplyAction.noReply) := by
  induction rs with
  | nil => rfl
  | cons hd tl ih =>
    obtain ⟨k, r⟩ := hd
    by_cases h1 : strStartsWith k "_" = true
    · simp [scanResponses, h1, List.filter_cons, ih]
    · rw [Bool.not_eq_true] at h1
      by_cases h2 : strContains msg k = true
      · simp [scanResponses, h1, h2, List.filter_cons]
      · rw [Bool.not_eq_true] at h2
        simp [scanResponses, h1, h2, List.filter_cons, ih]

/-- C6: an inbound text whose lowercase form contains "price" (or starts
with the price command) always takes the fetch-and-reply branch and no
keyword scan happens; otherwise the reply is the first non-reserved table
entry whose keyword occurs in the lowercased message (stored order), and no
reply is sent when none matches; underscore-prefixed keys never match — in
particular the literal message "_welcome" triggers nothing, while "how do I
deposit funds" triggers the "deposit" reply. -/
theorem auto_reply_spec (responses : List (String × String)) (text : String) :
    (strContains (lowerStr text) "price" = true ∨
        strStartsWith (lowerStr text) "/price" = true →
      auto_reply responses text = ReplyAction.priceReply) ∧
    (strContains (lowerStr text) "price" = false →
      strStartsWith (lowerStr text) "/price" = false →
      auto_reply responses text =
        (match (responses.filter fun kr =>
            !(strStartsWith kr.1 "_") && strContains (lowerStr text) kr.1).head? with
         | some kr => ReplyAction.reply kr.2
         | none => ReplyAction.noReply)) ∧
    auto_reply
      [("deposit", "How to deposit funds"),
       ("_welcome", "👋 Welcome {name} to our Trading Group!")]
      "how do I deposit funds" = ReplyAction.reply "How to deposit funds" ∧
    auto_reply
      [("deposit", "How to deposit funds"),
       ("_welcome", "👋 Welcome {name} to our Trading Group!")]
      "_welcome" = ReplyAction.noReply := by
  refine ⟨?_, ?_, by decide, by decide⟩
  · intro h
    rcases h with h | h <;> simp [auto_reply, h]
  · intro h1 h2
    have hbr : auto_reply responses text =
        scanResponses responses (lowerStr text) := by
      simp [auto_reply, h1, h2]
    rw [hbr, scanResponses_eq_filter_head]

/-- C6 witness: a message mentioning PRICE takes the price branch even with
an empty table. -/
theorem auto_reply_spec_witness :
    auto_reply [] "what is the PRICE of btc" = ReplyAction.priceReply :=
  (auto_reply_spec [] "what is the PRICE of btc").1 (Or.inl (by decide))

/-- `welcome(update, context)`: reply `(text, parse_mode)` when a member
joins, nothing otherwise. The joining user's `mention_html()` is the
`mention` argument. -/
def welcome (responses : List (String × String))
    (oldStatus newStatus mention : String) : Option (String × String) :=
  if (oldStatus = "left" ∨ oldStatus = "kicked") ∧ newStatus = "member" then
    some (strReplace ((lookupKey responses "_welcome").getD
      "👋 Welcome {name}!") "{name}" mention, "HTML")
  else none

/-- C9: a welcome message is sent iff the member-status transition is from
"left" or "kicked" to "member", and the message is the reserved welcome
template with its name placeholder replaced by the rich-text mention of the
joining user, sent with HTML formatting. -/
theorem welcome_iff (responses : List (String × String))
    (oldStatus newStatus mention : String) :
    ((oldStatus = "left" ∨ oldStatus = "kicked") ∧ newStatus = "member" →
      welcome responses oldStatus newStatus mention =
        some (strReplace ((lookupKey responses "_welcome").getD
          "👋 Welcome {name}!") "{name}" mention, "HTML")) ∧
    (¬ ((oldStatus = "left" ∨ oldStatus = "kicked") ∧ newStatus = "member") →
      welcome responses oldStatus newStatus mention = none) := by
  constructor <;> intro h <;> simp [welcome, h]

/-- C9 witness: a left-to-member transition greets the joining user by
mention; evaluated on the default welcome template. -/
theorem welcome_iff_witness :
    welcome [("_welcome", "👋 Welcome {name} to our Trading Group!")]
      "left" "member" "John" =
      some ("👋 Welcome John to our Trading Group!", "HTML") :=
  ((welcome_iff [("_welcome", "👋 Welcome {name} to our Trading Group!")]
    "left" "member" "John").1 ⟨Or.inl rfl, rfl⟩).trans (by decide)

-- The scheduler loop (`schedule_updates`)

/-- A dedup key of the scheduler: `(now.date(), hour, minute)`. Dates are
day ordinals. -/
abbrev SchedKey := ℤ × ℕ × ℕ

/-- A Bangkok-local wall-clock instant, at the granularity the scheduler
reads: calendar date (as a day ordinal) and time of day. -/
structure LocalTime where
  date : ℤ
  hour : ℕ
  minute : ℕ
deriving DecidableEq, Repr

/-- The dedup key of the current instant. -/
def nowKey (t : LocalTime) : SchedKey := (t.date, t.hour, t.minute)

/-- `target_times` from `schedule_updates`. -/
def target_times : List (ℕ × ℕ) := [(9, 0), (12, 0), (19, 0)]

/-- The `for hour, minute in target_times` loop of one scheduler wake-up:
returns the updated `sent_today` set and the list of keys broadcast. -/
def stepTargets (now : LocalTime) :
    List (ℕ × ℕ) → List SchedKey → List SchedKey × List SchedKey
  | [], sent => (sent, [])
  | (h, m) :: rest, sent =>
    if now.hour = h ∧ now.minute = m then
      if (now.date, h, m) ∈ sent then stepTargets now rest sent
      else
        let res := stepTargets now rest ((now.date, h, m) :: sent)
        (res.1, (now.date, h, m) :: res.2)
    else stepTargets now rest sent

/-- One iteration of the `while True` loop of `schedule_updates`: process
the targets, then clear `sent_today` at local midnight. -/
def schedStep (now : LocalTime) (sent : List SchedKey) :
    List SchedKey × List SchedKey :=
  let res := stepTargets now target_times sent
  (if now.hour = 0 ∧ now.minute = 0 then [] else res.1, res.2)

/-- The scheduler loop run over an explicit sequence of sampled clock
readings (one per 30-second poll): final `sent_today` set and the full
broadcast log. -/
def schedRun : List SchedKey → List LocalTime → List SchedKey × List SchedKey
  | sent, [] => (sent, [])
  | sent, t :: ts =>
    let s1 := schedStep t sent
    let s2 := schedRun s1.1 ts
    (s2.1, s1.2 ++ s2.2)

/-- Chronological order on sampled clock readings (dates advance at
midnight, so lexicographic). -/
def timeLe (a b : LocalTime) : Prop :=
  a.date < b.date ∨ (a.date = b.date ∧
    (a.hour < b.hour ∨ (a.hour = b.hour ∧ a.minute ≤ b.minute)))

instance (a b : LocalTime) : Decidable (timeLe a b) := by
  unfold timeLe
  infer_instance

theorem timeLe_date_le {a b : LocalTime} (h : timeLe a b) : a.date ≤ b.date := by
  unfold timeLe at h
  omega

theorem stepTargets_log_mem (now : LocalTime) (ts : List (ℕ × ℕ))
    (sent : List SchedKey) (k : SchedKey)
    (hk : k ∈ (stepTargets now ts sent).2) : k = nowKey now ∧ k ∉ sent := by
  induction ts generalizing sent with
  | nil => simp [stepTargets] at hk
  | cons hd tl ih =>
    obtain ⟨h, m⟩ := hd
    by_cases hc : now.hour = h ∧ now.minute = m
    · by_cases hmem : (now.date, h, m) ∈ sent
      · simp only [stepTargets, if_pos hc, if_pos hmem] at hk
        exact ih sent hk
      · simp only [stepTargets, if_pos hc, if_neg hmem] at hk
        rcases List.mem_cons.mp hk with rfl | hk
        · exact ⟨by simp [nowKey, hc.1, hc.2], hmem⟩
        · obtain ⟨hk1, hk2⟩ := ih _ hk
          exact ⟨hk1, fun hs => hk2 (List.mem_cons_of_mem _ hs)⟩
    · simp only [stepTargets, if_neg hc] at hk
      exact ih sent hk

theorem stepTargets_log_nil_of_mem (now : LocalTime) (ts : List (ℕ × ℕ))
    (sent : List SchedKey) (h : nowKey now ∈ sent) :
    (stepTargets now ts sent).2 = [] := by
  rw [List.eq_nil_iff_forall_not_mem]
  intro k hk
  obtain ⟨h1, h2⟩ := stepTargets_log_mem now ts sent k hk
  exact h2 (h1 ▸ h)

theorem stepTargets_log_eq (now : LocalTime) (ts : List (ℕ × ℕ))
    (sent : List SchedKey) :
    (stepTargets now ts sent).2 = [] ∨
    (stepTargets now ts sent).2 = [nowKey now] := by
  induction ts generalizing sent with
  | nil => exact Or.inl rfl
  | cons hd tl ih =>
    obtain ⟨h, m⟩ := hd
    by_cases hc : now.hour = h ∧ now.minute = m
    · by_cases hmem : (now.date, h, m) ∈ sent
      · simp only [stepTargets, if_pos hc, if_pos hmem]
        exact ih sent
      · right
        simp only [stepTargets, if_pos hc, if_neg hmem]
        have hkey : (now.date, h, m) = nowKey now := by simp [nowKey, hc.1, hc.2]
        have hnil : (stepTargets now tl ((now.date, h, m) :: sent)).2 = [] :=
          stepTargets_log_nil_of_mem now tl _ (by
            rw [← hkey]
            exact List.mem_cons_self _ _)
        rw [hnil, hkey]
    · simp only [stepTargets, if_neg hc]
      exact ih sent

theorem stepTargets_sent_mono (now : LocalTime) (ts : List (ℕ × ℕ))
    (sent : List SchedKey) (k : SchedKey) (h : k ∈ sent) :
    k ∈ (stepTargets now ts sent).1 := by
  induction ts generalizing sent with
  | nil => exact h
  | cons hd tl ih =>
    obtain ⟨h', m'⟩ := hd
    by_cases hc : now.hour = h' ∧ now.minute = m'
    · by_cases hmem : (now.date, h', m') ∈ sent
      · simp only [stepTargets, if_pos hc, if_pos hmem]
        exact ih sent h
      · simp only [stepTargets, if_pos hc, if_neg hmem]
        exact ih _ (List.mem_cons_of_mem _ h)
    · simp only [stepTargets, if_neg hc]
      exact ih sent h

theorem stepTargets_mem_of_log (now : LocalTime) (ts : List (ℕ × ℕ))
    (sent : List SchedKey) (h : (stepTargets now ts sent).2 ≠ []) :
    nowKey now ∈ (stepTargets now ts sent).1 := by
  induction ts generalizing sent with
  | nil => exact absurd rfl h
  | cons hd tl ih =>
    obtain ⟨h', m'⟩ := hd
    by_cases hc : now.hour = h' ∧ now.minute = m'
    · by_cases hmem : (now.date, h', m') ∈ sent
      · simp only [stepTargets, if_pos hc, if_pos hmem] at h ⊢
        exact ih sent h
      · simp only [stepTargets, if_pos hc, if_neg hmem]
        have hkey : (now.date, h', m') = nowKey now := by
          simp [nowKey, hc.1, hc.2]
        exact stepTargets_sent_mono now tl _ _ (by
          rw [← hkey]
          exact List.mem_cons_self _ _)
    · simp only [stepTargets, if_neg hc] at h ⊢
      exact ih sent h

theorem stepTargets_fires (now : LocalTime) (ts : List (ℕ × ℕ))
    (sent : List SchedKey) (hmem : (now.hour, now.minute) ∈ ts)
    (hnot : nowKey now ∉ sent) :
    (stepTargets now ts sent).2 = [nowKey now] := by
  induction ts with
  | nil => cases hmem
  | cons hd tl ih =>
    obtain ⟨h, m⟩ := hd
    by_cases hc : now.hour = h ∧ now.minute = m
    · have hkey : (now.date, h, m) = nowKey now := by simp [nowKey, hc.1, hc.2]
      have hmem' : (now.date, h, m) ∉ sent := by
        rw [hkey]
        exact hnot
      simp only [stepTargets, if_pos hc, if_neg hmem']
      have hnil : (stepTargets now tl ((now.date, h, m) :: sent)).2 = [] :=
        stepTargets_log_nil_of_mem now tl _ (by
          rw [← hkey]
          exact List.mem_cons_self _ _)
      rw [hnil, hkey]
    · rcases List.mem_cons.mp hmem with heq | hmem'
      · injection heq with e1 e2
        exact absurd ⟨e1, e2⟩ hc
      · simp only [stepTargets, if_neg hc]
        exact ih hmem'

theorem schedStep_log_mem (now : LocalTime) (sent : List SchedKey)
    (k : SchedKey) (hk : k ∈ (schedStep now sent).2) :
    k = nowKey now ∧ k ∉ sent :=
  stepTargets_log_mem now target_times sent k hk

theorem schedStep_log_eq (now : LocalTime) (sent : List SchedKey) :
    (schedStep now sent).2 = [] ∨ (schedStep now sent).2 = [nowKey now] :=
  stepTargets_log_eq now target_times sent

theorem schedStep_fires (now : LocalTime) (sent : List SchedKey)
    (hmem : (now.hour, now.minute) ∈ target_times)
    (hnot : nowKey now ∉ sent) :
    (schedStep now sent).2 = [nowKey now] :=
  stepTargets_fires now target_times sent hmem hnot

theorem schedStep_keeps (now : LocalTime) (sent : List SchedKey) (k : SchedKey)
    (hk : k ∈ sent) (hmid : ¬ (now.hour = 0 ∧ now.minute = 0)) :
    k ∈ (schedStep now sent).1 := by
  simp only [schedStep, if_neg hmid]
  exact stepTargets_sent_mono now target_times sent k hk

theorem schedStep_mem_of_log (now : LocalTime) (sent : List SchedKey)
    (h : (schedStep now sent).2 ≠ [])
    (hmid : ¬ (now.hour = 0 ∧ now.minute = 0)) :
    nowKey now ∈ (schedStep now sent).1 := by
  simp only [schedStep, if_neg hmid]
  exact stepTargets_mem_of_log now target_times sent h

theorem schedRun_no_broadcast_date (sent : List SchedKey)
    (ticks : List LocalTime) (d : ℤ) (h m : ℕ)
    (hd : ∀ t ∈ ticks, t.date ≠ d) :
    ((d, h, m) : SchedKey) ∉ (schedRun sent ticks).2 := by
  induction ticks generalizing sent with
  | nil => simp [schedRun]
  | cons t ts ih =>
    simp only [schedRun, List.mem_append]
    rintro (hk | hk)
    · have h1 := (schedStep_log_mem t sent _ hk).1
      simp only [nowKey, Prod.mk.injEq] at h1
      exact hd t (List.mem_cons_self _ _) h1.1.symm
    · exact ih _ (fun t' ht' => hd t' (List.mem_cons_of_mem _ ht')) hk

theorem schedRun_no_rebroadcast (d : ℤ) (h m : ℕ) (hh : h ≠ 0)
    (ticks : List LocalTime) :
    ∀ (sent : List SchedKey), ((d, h, m) : SchedKey) ∈ sent →
    List.Pairwise timeLe ticks →
    (∀ t ∈ ticks, timeLe ⟨d, h, m⟩ t) →
    ((d, h, m) : SchedKey) ∉ (schedRun sent ticks).2 := by
  induction ticks with
  | nil =>
    intro sent _ _ _
    simp [schedRun]
  | cons t ts ih =>
    intro sent hk hsort hbound
    simp only [schedRun, List.mem_append]
    rintro (hmem | hmem)
    · exact (schedStep_log_mem t sent _ hmem).2 hk
    · by_cases hmid : t.hour = 0 ∧ t.minute = 0
      · have h1 : timeLe ⟨d, h, m⟩ t := hbound t (List.mem_cons_self _ _)
        have hdt : d < t.date := by
          obtain ⟨hm1, hm2⟩ := hmid
          unfold timeLe at h1
          simp only at h1
          omega
        have hd' : ∀ t' ∈ ts, t'.date ≠ d := by
          intro t' ht'
          have h2 := timeLe_date_le (List.rel_of_pairwise_cons hsort ht')
          omega
        exact schedRun_no_broadcast_date _ ts d h m hd' hmem
      · have hk' : ((d, h, m) : SchedKey) ∈ (schedStep t sent).1 :=
          schedStep_keeps t sent _ hk hmid
        exact ih _ hk' hsort.of_cons
          (fun t' ht' => hbound t' (List.mem_cons_of_mem _ ht')) hmem

theorem schedRun_count_le_one (d : ℤ) (h m : ℕ) (hh : h ≠ 0)
    (ticks : List LocalTime) :
    ∀ sent : List SchedKey, List.Pairwise timeLe ticks →
    ((schedRun sent ticks).2.count ((d, h, m) : SchedKey)) ≤ 1 := by
  induction ticks with
  | nil =>
    intro sent _
    simp [schedRun]
  | cons t ts ih =>
    intro sent hsort
    simp only [schedRun, List.count_append]
    by_cases hmem : ((d, h, m) : SchedKey) ∈ (schedStep t sent).2
    · obtain ⟨hk, hnot⟩ := schedStep_log_mem t sent _ hmem
      have ht : t = ⟨d, h, m⟩ := by
        obtain ⟨td, th, tm⟩ := t
        simp only [nowKey, Prod.mk.injEq] at hk
        simp [hk.1, hk.2.1, hk.2.2]
      have hmid : ¬ (t.hour = 0 ∧ t.minute = 0) := by
        rw [ht]
        exact fun hc => hh hc.1
      have hlog : (schedStep t sent).2 = [nowKey t] := by
        rcases schedStep_log_eq t sent with he | he
        · rw [he] at hmem
          cases hmem
        · exact he
      have hin : ((d, h, m) : SchedKey) ∈ (schedStep t sent).1 := by
        rw [hk]
        exact schedStep_mem_of_log t sent (by
          rw [hlog]
          exact List.cons_ne_nil _ _) hmid
      have hrest : ((d, h, m) : SchedKey) ∉ (schedRun (schedStep t sent).1 ts).2 :=
        schedRun_no_rebroadcast d h m hh ts _ hin hsort.of_cons
          (fun t' ht' => ht ▸ List.rel_of_pairwise_cons hsort ht')
      rw [hlog, ← hk, List.count_eq_zero.mpr hrest]
      simp
    · rw [List.count_eq_zero.mpr hmem]
      simpa using ih _ hsort.of_cons

/-- C2: starting from an empty dedup set, a chronologically ordered
sequence of polls broadcasts each target `(hour, minute)` at most once per
calendar date — and a date that hits 09:00 on two consecutive polls of the
same date broadcasts it exactly once. -/
theorem sched_at_most_once (ticks : List LocalTime) (d : ℤ) (h m : ℕ)
    (hsort : List.Pairwise timeLe ticks) (hmem : (h, m) ∈ target_times) :
    ((schedRun [] ticks).2.count ((d, h, m) : SchedKey)) ≤ 1 ∧
    (schedRun [] [⟨d, 9, 0⟩, ⟨d, 9, 0⟩]).2 = [((d, 9, 0) : SchedKey)] := by
  constructor
  · have hh : h ≠ 0 := by
      simp only [target_times, List.mem_cons, List.not_mem_nil, or_false,
        Prod.mk.injEq] at hmem
      rcases hmem with ⟨h1, h2⟩ | ⟨h1, h2⟩ | ⟨h1, h2⟩ <;> omega
    exact schedRun_count_le_one d h m hh ticks [] hsort
  · simp [schedRun, schedStep, stepTargets, target_times, nowKey]

/-- C2 witness: the duplicate-tick run at date 0, with the order hypothesis
discharged. -/
theorem sched_at_most_once_witness :
    ((schedRun [] [⟨0, 9, 0⟩, ⟨0, 9, 0⟩]).2.count (((0 : ℤ), 9, 0) : SchedKey)) ≤ 1 :=
  (sched_at_most_once [⟨0, 9, 0⟩, ⟨0, 9, 0⟩] 0 9 0 (by decide) (by decide)).1

/-- C8: reaching local midnight clears the sent set; any poll whose time of
day is a target and whose (date, hour, minute) key is not yet in the sent
set broadcasts — the key includes the date, so the previous day's entry
never suppresses the new day's send; concretely, a run crossing midnight
broadcasts 09:00 on both days. -/
theorem sched_midnight_reset (sent : List SchedKey) (t : LocalTime) (d : ℤ) :
    (schedStep ⟨d, 0, 0⟩ sent).1 = [] ∧
    ((t.hour, t.minute) ∈ target_times → nowKey t ∉ sent →
      (schedStep t sent).2 = [nowKey t]) ∧
    (schedRun [] [⟨0, 9, 0⟩, ⟨1, 0, 0⟩, ⟨1, 9, 0⟩]).2 =
      [(((0 : ℤ), 9, 0) : SchedKey), (((1 : ℤ), 9, 0) : SchedKey)] := by
  refine ⟨?_, fun hmem hnot => schedStep_fires t sent hmem hnot, by decide⟩
  simp [schedStep, stepTargets, target_times]

/-- C8 witness: on the new day, 09:00 fires although the previous day's
09:00 key is still in the sent set. -/
theorem sched_midnight_reset_witness :
    (schedStep ⟨1, 9, 0⟩ [(((0 : ℤ), 9, 0) : SchedKey)]).2 =
      [(((1 : ℤ), 9, 0) : SchedKey)] :=
  (sched_midnight_reset [(((0 : ℤ), 9, 0) : SchedKey)] ⟨1, 9, 0⟩ 0).2.1
    (by decide) (by decide)
